import Mathlib

/-!
# Verification of the Lomb-Scargle periodogram routine (`src/lib/lombscargle.rs`)

This file shallowly embeds the Rust function `lombscargle` in Lean 4 over the
exact real numbers. Conventions of the embedding:

* `f64` values are modelled as exact real numbers `ℝ`; the trigonometric
  recurrence of the accumulation loop is transcribed verbatim.
* The four `assert!` preconditions (lines 45-48 of the source) are modelled as
  an `Except` error `LSError.invalidInput`; an out-of-bounds slice index inside
  the accumulation loop (which panics in Rust) is modelled as
  `LSError.indexPanic`.
* An IEEE-754 division whose (finite, exactly computed) divisor is zero yields
  a non-finite value (`±∞` when the dividend is nonzero, `NaN` when it is
  zero), and non-finite values propagate through `+`, `-`, `*` to non-finite
  values.  The embedding models an `f64` that may be non-finite as `Option ℝ`
  with `none` standing for any non-finite value (`NaN` or `±Infinity`); see
  `Lombscargle.fdiv`.
-/

namespace Lombscargle

open Real Finset

/-- The arguments of `lombscargle` (source line 42). -/
structure LSArgs where
  time : List ℝ
  signal : List ℝ
  weights : List ℝ
  freq_start : ℝ
  freq_step : ℝ
  num_freq : ℕ
  with_constant : Bool

/-- Failure modes of the routine: the `assert!` preconditions (modelled as
`invalidInput`, following the spec's taxonomy) and an out-of-bounds slice
index, which in Rust panics inside the accumulation loop (`indexPanic`). -/
inductive LSError where
  | invalidInput : LSError
  | indexPanic : LSError
deriving DecidableEq

/-- The four `assert!` preconditions of source lines 45-48:
`time.len() > 0`, `signal.len() == time.len()`, `freq_step > 0.0`,
`num_freq >= 1`. -/
def validArgs (a : LSArgs) : Prop :=
  0 < a.time.length ∧ a.signal.length = a.time.length ∧
    0 < a.freq_step ∧ 1 ≤ a.num_freq

/-- Source line 50: `let mean = signal.iter().zip(weights.iter()).map(|(x,y)| x*y).sum()`.
`List.zip` truncates to the shorter list, exactly as Rust's `zip` does. -/
def mean (a : LSArgs) : ℝ :=
  ((a.signal.zip a.weights).map (fun p => p.1 * p.2)).sum

/-- Source line 51: `let y: Vec<f64> = signal.iter().map(|x| x-mean).collect()`. -/
def y (a : LSArgs) : List ℝ :=
  a.signal.map (fun x => x - mean a)

/-- Source line 53: `omega_start = freq_start * 2.0 * PI`. -/
noncomputable def omega_start (a : LSArgs) : ℝ := a.freq_start * 2 * π

/-- Source line 54: `omega_step = freq_step * 2.0 * PI`. -/
noncomputable def omega_step (a : LSArgs) : ℝ := a.freq_step * 2 * π

/-- `time[n]`, as the loop of line 65 reads it (indices stay in bounds in the
`ok` branch of `lombscargle`, where this is the only use). -/
def tN (a : LSArgs) (n : ℕ) : ℝ := a.time.getD n 0

/-- `weights[n]` as read on lines 66-79. -/
def wN (a : LSArgs) (n : ℕ) : ℝ := a.weights.getD n 0

/-- `signal[n]`. -/
def sigN (a : LSArgs) (n : ℕ) : ℝ := a.signal.getD n 0

/-- `y[n]`, the centered signal value read on lines 66-75. -/
def yN (a : LSArgs) (n : ℕ) : ℝ := (y a).getD n 0

/-- The recurrence state `(sinx, cosx)` that the inner loop of lines 70-93
holds when it processes bin `j`, for the sample at time `t`:

* initialised (lines 70-71) to `(sin(omega_start*t), cos(omega_start*t))`;
* after processing bin `j` with `j % 5000 == 0` (lines 85-88), recomputed
  exactly as `sin/cos(t*(omega_start+(j+1)*omega_step))`;
* otherwise (lines 89-93) advanced by the angle-addition rotation with
  `sindx = sin(omega_step*t)`, `cosdx = cos(omega_step*t)`. -/
noncomputable def sincosRec (t ωs ωd : ℝ) : ℕ → ℝ × ℝ
  | 0 => (Real.sin (ωs * t), Real.cos (ωs * t))
  | j + 1 =>
    if j % 5000 = 0 then
      (Real.sin (t * (ωs + ((j : ℝ) + 1) * ωd)),
       Real.cos (t * (ωs + ((j : ℝ) + 1) * ωd)))
    else
      let p := sincosRec t ωs ωd j
      (p.1 * Real.cos (ωd * t) + p.2 * Real.sin (ωd * t),
       p.2 * Real.cos (ωd * t) - p.1 * Real.sin (ωd * t))

/-- The sine value the inner loop uses at sample `n`, bin `j`. -/
noncomputable def sinxAt (a : LSArgs) (n j : ℕ) : ℝ :=
  (sincosRec (tN a n) (omega_start a) (omega_step a) j).1

/-- The cosine value the inner loop uses at sample `n`, bin `j`. -/
noncomputable def cosxAt (a : LSArgs) (n j : ℕ) : ℝ :=
  (sincosRec (tN a n) (omega_start a) (omega_step a) j).2

/-- Line 66: `sum_y += weights[n] * y[n]` over all samples. -/
def sum_y (a : LSArgs) : ℝ :=
  ∑ n in range a.time.length, wN a n * yN a n

/-- Line 67: `sum_yy += weights[n] * y[n] * y[n]`. -/
def sum_yy (a : LSArgs) : ℝ :=
  ∑ n in range a.time.length, wN a n * yN a n * yN a n

/-- Line 74: `sum_ysinx[j] += weights[n] * y[n] * sinx`. -/
noncomputable def sum_ysinx (a : LSArgs) (j : ℕ) : ℝ :=
  ∑ n in range a.time.length, wN a n * yN a n * sinxAt a n j

/-- Line 75: `sum_ycosx[j] += weights[n] * y[n] * cosx`. -/
noncomputable def sum_ycosx (a : LSArgs) (j : ℕ) : ℝ :=
  ∑ n in range a.time.length, wN a n * yN a n * cosxAt a n j

/-- Line 76: `sum_sinx[j] += weights[n] * sinx`. -/
noncomputable def sum_sinx (a : LSArgs) (j : ℕ) : ℝ :=
  ∑ n in range a.time.length, wN a n * sinxAt a n j

/-- Line 77: `sum_cosx[j] += weights[n] * cosx`. -/
noncomputable def sum_cosx (a : LSArgs) (j : ℕ) : ℝ :=
  ∑ n in range a.time.length, wN a n * cosxAt a n j

/-- Line 78: `sum_sinxsinx[j] += weights[n] * sinx * sinx`. -/
noncomputable def sum_sinxsinx (a : LSArgs) (j : ℕ) : ℝ :=
  ∑ n in range a.time.length, wN a n * sinxAt a n j * sinxAt a n j

/-- Line 79: `sum_sinxcosx[j] += weights[n] * sinx * cosx`. -/
noncomputable def sum_sinxcosx (a : LSArgs) (j : ℕ) : ℝ :=
  ∑ n in range a.time.length, wN a n * sinxAt a n j * cosxAt a n j

/-- Model of an `f64` division applied to finite, exactly-computed operands:
when the divisor is `0`, IEEE-754 yields a non-finite value (`±Infinity` for a
nonzero dividend, `NaN` for `0/0`), modelled uniformly as `none`; otherwise the
quotient is the exact one. -/
noncomputable def fdiv (x d : ℝ) : Option ℝ :=
  if d = 0 then none else some (x / d)

/-- Line 102: `yy = sum_yy - sum_y * sum_y`. -/
def yy (a : LSArgs) : ℝ := sum_yy a - sum_y a * sum_y a

/-- Line 104: `ys = sum_ysinx[j] - sum_y * sum_sinx[j]`. -/
noncomputable def ys (a : LSArgs) (j : ℕ) : ℝ :=
  sum_ysinx a j - sum_y a * sum_sinx a j

/-- Line 105: `yc = sum_ycosx[j] - sum_y * sum_cosx[j]`. -/
noncomputable def yc (a : LSArgs) (j : ℕ) : ℝ :=
  sum_ycosx a j - sum_y a * sum_cosx a j

/-- `ss` of the executed branch: line 107 when `with_constant`, line 118
otherwise. -/
noncomputable def ss (a : LSArgs) (j : ℕ) : ℝ :=
  if a.with_constant then sum_sinxsinx a j - sum_sinx a j * sum_sinx a j
  else sum_sinxsinx a j

/-- `cc` of the executed branch: line 108 when `with_constant`, line 119
otherwise. -/
noncomputable def cc (a : LSArgs) (j : ℕ) : ℝ :=
  if a.with_constant then (1 - sum_sinxsinx a j) - sum_cosx a j * sum_cosx a j
  else 1 - sum_sinxsinx a j

/-- `cs` of the executed branch: line 109 when `with_constant`, line 120
otherwise. -/
noncomputable def cs (a : LSArgs) (j : ℕ) : ℝ :=
  if a.with_constant then sum_sinxcosx a j - sum_cosx a j * sum_sinx a j
  else sum_sinxcosx a j

/-- Lines 110/121: `d = cc*ss - cs*cs`. -/
noncomputable def d (a : LSArgs) (j : ℕ) : ℝ :=
  cc a j * ss a j - cs a j * cs a j

/-- Lines 111/122: the value pushed onto `spectrum` for bin `j`:
`(ss*yc*yc + cc*ys*ys - 2*cs*yc*ys) / (yy*d)`. -/
noncomputable def spectrumAt (a : LSArgs) (j : ℕ) : Option ℝ :=
  fdiv (ss a j * yc a j * yc a j + cc a j * ys a j * ys a j -
      2 * cs a j * yc a j * ys a j)
    (yy a * d a j)

/-- Lines 112/123: `ampl_cos = (yc*ss - ys*cs) / d`. -/
noncomputable def ampCosAt (a : LSArgs) (j : ℕ) : Option ℝ :=
  fdiv (yc a j * ss a j - ys a j * cs a j) (d a j)

/-- Lines 113/124: `ampl_sin = (ys*cc - yc*cs) / d`. -/
noncomputable def ampSinAt (a : LSArgs) (j : ℕ) : Option ℝ :=
  fdiv (ys a j * cc a j - yc a j * cs a j) (d a j)

/-- The value pushed onto `constant` for bin `j`: line 116 when
`with_constant` (where a non-finite amplitude propagates to a non-finite
constant), line 125 (`constant.push(mean)`) otherwise. -/
noncomputable def constantAt (a : LSArgs) (j : ℕ) : Option ℝ :=
  if a.with_constant then do
    let ac ← ampCosAt a j
    let av ← ampSinAt a j
    pure (sum_y a - ac * sum_cosx a j - av * sum_sinx a j + mean a)
  else
    some (mean a)

/-- The full routine of source lines 42-130.  The `assert!`s of lines 45-48
become `invalidInput`; if `weights` is shorter than `time`, the read
`weights[n]` at `n = weights.len()` in the loop of lines 65-67 is out of
bounds and Rust panics, modelled as `indexPanic`.  In the remaining case all
slice reads are in bounds and the routine returns the four per-bin sequences
of lines 97-129. -/
noncomputable def lombscargle (a : LSArgs) :
    Except LSError (List (Option ℝ) × List (Option ℝ) × List (Option ℝ) × List (Option ℝ)) :=
  if a.time.length = 0 then .error .invalidInput
  else if a.signal.length ≠ a.time.length then .error .invalidInput
  else if ¬ 0 < a.freq_step then .error .invalidInput
  else if ¬ 1 ≤ a.num_freq then .error .invalidInput
  else if a.weights.length < a.time.length then .error .indexPanic
  else .ok ((List.range a.num_freq).map (spectrumAt a),
            (List.range a.num_freq).map (ampCosAt a),
            (List.range a.num_freq).map (ampSinAt a),
            (List.range a.num_freq).map (constantAt a))

/-! ## Spec-side direct definitions of the moment sums (for the refinement
claim): bin `j`'s angular frequency is `ω_j = 2π(freq_start + j·freq_step)`,
and each sum is the weighted sum over all samples of the corresponding
product of `y[n] = signal[n] - mean` with `sin/cos(ω_j·time[n])`. -/

/-- Spec-side: angular frequency of bin `j`. -/
noncomputable def omegaJ (a : LSArgs) (j : ℕ) : ℝ :=
  2 * π * (a.freq_start + j * a.freq_step)

/-- Spec-side: `sum_y = Σ weights[n]·y[n]`. -/
def sum_y_direct (a : LSArgs) : ℝ :=
  ∑ n in range a.time.length, wN a n * (sigN a n - mean a)

/-- Spec-side: `sum_yy = Σ weights[n]·y[n]²`. -/
def sum_yy_direct (a : LSArgs) : ℝ :=
  ∑ n in range a.time.length, wN a n * (sigN a n - mean a) * (sigN a n - mean a)

/-- Spec-side: `sum_ysinx[j] = Σ weights[n]·y[n]·sin(ω_j·time[n])`. -/
noncomputable def sum_ysinx_direct (a : LSArgs) (j : ℕ) : ℝ :=
  ∑ n in range a.time.length,
    wN a n * (sigN a n - mean a) * Real.sin (omegaJ a j * tN a n)

/-- Spec-side: `sum_ycosx[j] = Σ weights[n]·y[n]·cos(ω_j·time[n])`. -/
noncomputable def sum_ycosx_direct (a : LSArgs) (j : ℕ) : ℝ :=
  ∑ n in range a.time.length,
    wN a n * (sigN a n - mean a) * Real.cos (omegaJ a j * tN a n)

/-- Spec-side: `sum_sinx[j] = Σ weights[n]·sin(ω_j·time[n])`. -/
noncomputable def sum_sinx_direct (a : LSArgs) (j : ℕ) : ℝ :=
  ∑ n in range a.time.length, wN a n * Real.sin (omegaJ a j * tN a n)

/-- Spec-side: `sum_cosx[j] = Σ weights[n]·cos(ω_j·time[n])`. -/
noncomputable def sum_cosx_direct (a : LSArgs) (j : ℕ) : ℝ :=
  ∑ n in range a.time.length, wN a n * Real.cos (omegaJ a j * tN a n)

/-- Spec-side: `sum_sinxsinx[j] = Σ weights[n]·sin²(ω_j·time[n])`. -/
noncomputable def sum_sinxsinx_direct (a : LSArgs) (j : ℕ) : ℝ :=
  ∑ n in range a.time.length,
    wN a n * Real.sin (omegaJ a j * tN a n) * Real.sin (omegaJ a j * tN a n)

/-- Spec-side: `sum_sinxcosx[j] = Σ weights[n]·sin(ω_j·time[n])·cos(ω_j·time[n])`. -/
noncomputable def sum_sinxcosx_direct (a : LSArgs) (j : ℕ) : ℝ :=
  ∑ n in range a.time.length,
    wN a n * Real.sin (omegaJ a j * tN a n) * Real.cos (omegaJ a j * tN a n)

/-- Witness for C1 at the concrete input
`time = [0]`, `signal = [1]`, `weights = [1]`, `freq_start = 1`,
`freq_step = 1`, `num_freq = 1`, `with_constant = true`. -/
def argsC1 : LSArgs := ⟨[0], [1], [1], 1, 1, 1, true⟩

/-- Witness input for C2. -/
def argsC2 : LSArgs := ⟨[0], [1], [1], 1, 1, 1, true⟩

/-- Witness input for C3. -/
def argsC3 : LSArgs := ⟨[0], [1], [1], 1, 1, 1, false⟩

/-- Witness input for C4. -/
def argsC4 : LSArgs := ⟨[], [], [], 1, 1, 1, true⟩

/-- Witness input for C5. -/
def argsC5 : LSArgs := ⟨[0], [1], [1], 1, 1, 2, false⟩

/-- Witness input for C6: a single sample at `t = 0` makes the design matrix
singular (`d = 0`) in the floating-constant branch. -/
def argsC6 : LSArgs := ⟨[0], [0], [1], 1, 1, 1, true⟩

/-- Witness input for C7: two samples a quarter period apart with equal
weights summing to 1, a non-constant signal, `num_freq = 1`,
`with_constant = false`. -/
noncomputable def argsC7 : LSArgs :=
  ⟨[0, 1], [0, 2], [1 / 2, 1 / 2], 1 / 4, 1, 1, false⟩

/-- Counterexample input for C8: the four checked preconditions hold and
`freq_start = 0 ≤ 0`, but `weights` is empty, so the loop read `weights[0]`
is out of bounds. -/
def argsC8cex : LSArgs := ⟨[0], [0], [], 0, 1, 1, true⟩

/-- Witness input for the amended C8: `freq_start = 0` with a long-enough
`weights`. -/
def argsC8 : LSArgs := ⟨[0], [0], [1], 0, 1, 1, true⟩

/-- Witness input for C9: `weights` (length 1) shorter than `time`
(length 2). -/
def argsC9 : LSArgs := ⟨[0, 1], [1, 2], [1], 1, 1, 1, true⟩

/-- Witness input for C10: a constant signal with weights summing to 1. -/
def argsC10 : LSArgs := ⟨[0], [5], [1], 1, 1, 1, true⟩

/-- The angle-addition recurrence, in exact real arithmetic, reproduces the
exact angle at every bin: its state at bin `j` is
`(sin(t*(ωs+j*ωd)), cos(t*(ωs+j*ωd)))`. -/
theorem sincosRec_eq (t ωs ωd : ℝ) (j : ℕ) :
    sincosRec t ωs ωd j =
      (Real.sin (t * (ωs + j * ωd)), Real.cos (t * (ωs + j * ωd))) := by
  induction j with
  | zero =>
    simp [sincosRec, mul_comm]
  | succ j ih =>
    rw [sincosRec]
    split
    · have h : t * (ωs + ((j : ℝ) + 1) * ωd) = t * (ωs + ((j : ℕ) + 1 : ℕ) * ωd) := by
        push_cast
        ring
      rw [h]
    · rw [ih]
      have h : t * (ωs + ((j : ℕ) + 1 : ℕ) * ωd) = t * (ωs + (j : ℝ) * ωd) + ωd * t := by
        push_cast
        ring
      rw [h, Real.sin_add, Real.cos_add]

/-! ## General helper lemmas -/

/-- On the `ok` path, `lombscargle` returns the four mapped sequences. -/
theorem lombscargle_ok (a : LSArgs) (hv : validArgs a)
    (hw : a.time.length ≤ a.weights.length) :
    lombscargle a = .ok ((List.range a.num_freq).map (spectrumAt a),
      (List.range a.num_freq).map (ampCosAt a),
      (List.range a.num_freq).map (ampSinAt a),
      (List.range a.num_freq).map (constantAt a)) := by
  obtain ⟨h1, h2, h3, h4⟩ := hv
  unfold lombscargle
  rw [if_neg (by omega), if_neg (by omega), if_neg (not_not_intro h3),
    if_neg (not_not_intro h4), if_neg (by omega)]

theorem getD_map_range {α : Type} (f : ℕ → α) (x : α) {j n : ℕ} (hj : j < n) :
    ((List.range n).map f).getD j x = f j := by
  rw [List.getD_eq_getElem _ _ (by simpa using hj)]
  simp

/-- For an in-range index, `y[n] = signal[n] - mean`. -/
theorem yN_eq (a : LSArgs) {n : ℕ} (hn : n < a.signal.length) :
    yN a n = sigN a n - mean a := by
  unfold yN y sigN
  rw [List.getD_eq_getElem _ _ (by simpa using hn), List.getElem_map,
    List.getD_eq_getElem _ _ hn]

/-- The zipped sum of line 50 as a `Finset.range` sum: it silently truncates
to the shorter of the two lists. -/
theorem zip_sum_eq (l₁ l₂ : List ℝ) :
    ((l₁.zip l₂).map (fun p => p.1 * p.2)).sum =
      ∑ n in range (min l₁.length l₂.length), l₁.getD n 0 * l₂.getD n 0 := by
  induction l₁ generalizing l₂ with
  | nil => simp
  | cons x xs ih =>
    cases l₂ with
    | nil => simp
    | cons z zs =>
      have hmin : min (x :: xs).length (z :: zs).length =
          min xs.length zs.length + 1 := by
        simp [Nat.succ_min_succ]
      rw [hmin, Finset.sum_range_succ']
      simp only [List.zip_cons_cons, List.map_cons, List.sum_cons,
        List.getD_cons_succ, List.getD_cons_zero]
      rw [ih zs]
      ring

/-- The recurrence value used at sample `n`, bin `j` is exactly
`sin(ω_j·time[n])`. -/
theorem sinxAt_eq (a : LSArgs) (n j : ℕ) :
    sinxAt a n j = Real.sin (omegaJ a j * tN a n) := by
  unfold sinxAt
  rw [sincosRec_eq]
  show Real.sin (tN a n * (omega_start a + j * omega_step a)) = _
  congr 1
  unfold omegaJ omega_start omega_step
  ring

/-- The recurrence value used at sample `n`, bin `j` is exactly
`cos(ω_j·time[n])`. -/
theorem cosxAt_eq (a : LSArgs) (n j : ℕ) :
    cosxAt a n j = Real.cos (omegaJ a j * tN a n) := by
  unfold cosxAt
  rw [sincosRec_eq]
  show Real.cos (tN a n * (omega_start a + j * omega_step a)) = _
  congr 1
  unfold omegaJ omega_start omega_step
  ring

/-- C1: for every valid input (non-empty `time`, `signal` of equal length,
`weights` at least that long, `freq_step > 0`, `num_freq ≥ 1`), the moment
sums produced by the sample/bin double loop with the angle-addition recurrence
and `j % 5000 == 0` resynchronization equal, in exact real arithmetic, their
direct definitions at angular frequency `ω_j = 2π(freq_start + j·freq_step)`,
with `y[n] = signal[n]` minus the weighted mean of `signal`. -/
theorem moment_sums_refine_direct (a : LSArgs) (hv : validArgs a)
    (hw : a.time.length ≤ a.weights.length) :
    sum_y a = sum_y_direct a ∧ sum_yy a = sum_yy_direct a ∧
    ∀ j < a.num_freq,
      sum_ysinx a j = sum_ysinx_direct a j ∧
      sum_ycosx a j = sum_ycosx_direct a j ∧
      sum_sinx a j = sum_sinx_direct a j ∧
      sum_cosx a j = sum_cosx_direct a j ∧
      sum_sinxsinx a j = sum_sinxsinx_direct a j ∧
      sum_sinxcosx a j = sum_sinxcosx_direct a j := by
  obtain ⟨h1, h2, h3, h4⟩ := hv
  have hy : ∀ n ∈ range a.time.length, yN a n = sigN a n - mean a := by
    intro n hn
    exact yN_eq a (h2 ▸ Finset.mem_range.mp hn)
  refine ⟨?_, ?_, fun j hj => ⟨?_, ?_, ?_, ?_, ?_, ?_⟩⟩ <;>
    refine Finset.sum_congr rfl fun n hn => ?_ <;>
    simp only [hy n hn, sinxAt_eq, cosxAt_eq]

theorem moment_sums_refine_direct_witness :
    validArgs argsC1 ∧ argsC1.time.length ≤ argsC1.weights.length ∧
    (sum_y argsC1 = sum_y_direct argsC1 ∧ sum_yy argsC1 = sum_yy_direct argsC1 ∧
     ∀ j < argsC1.num_freq,
       sum_ysinx argsC1 j = sum_ysinx_direct argsC1 j ∧
       sum_ycosx argsC1 j = sum_ycosx_direct argsC1 j ∧
       sum_sinx argsC1 j = sum_sinx_direct argsC1 j ∧
       sum_cosx argsC1 j = sum_cosx_direct argsC1 j ∧
       sum_sinxsinx argsC1 j = sum_sinxsinx_direct argsC1 j ∧
       sum_sinxcosx argsC1 j = sum_sinxcosx_direct argsC1 j) := by
  have hv : validArgs argsC1 := by
    refine ⟨by simp [argsC1], by simp [argsC1], by norm_num [argsC1], by simp [argsC1]⟩
  have hw : argsC1.time.length ≤ argsC1.weights.length := by simp [argsC1]
  exact ⟨hv, hw, moment_sums_refine_direct argsC1 hv hw⟩

/-- The weighted mean of line 50, when the lengths are consistent, is the sum
over all samples of `signal[n]·weights[n]`. -/
theorem mean_eq_sum (a : LSArgs) (h2 : a.signal.length = a.time.length)
    (hw : a.time.length ≤ a.weights.length) :
    mean a = ∑ n in range a.time.length, sigN a n * wN a n := by
  unfold mean
  rw [zip_sum_eq]
  have hmin : min a.signal.length a.weights.length = a.time.length := by omega
  rw [hmin]
  rfl

/-- C2: for every valid input with `with_constant = true` and every bin `j`,
the outputs are computed from the accumulated sums exactly by the
floating-constant closed-form solver: `ys`, `yc`, `yy`, `ss`, `cc`, `cs`, `d`
as claimed, `spectrum[j] = (ss·yc² + cc·ys² - 2·cs·yc·ys)/(yy·d)`,
`amp_cos[j] = (yc·ss - ys·cs)/d`, `amp_sin[j] = (ys·cc - yc·cs)/d`, and
`constant[j] = sum_y - amp_cos[j]·sum_cosx[j] - amp_sin[j]·sum_sinx[j] + mean`
(divisions are the IEEE-modelling `fdiv`; a non-finite amplitude makes the
constant non-finite). -/
theorem with_constant_solver_formulas (a : LSArgs) (hv : validArgs a)
    (hw : a.time.length ≤ a.weights.length) (hc : a.with_constant = true) :
    ∃ sp ac av ct, lombscargle a = .ok (sp, ac, av, ct) ∧
      ∀ j < a.num_freq,
        let ysv := sum_ysinx a j - sum_y a * sum_sinx a j
        let ycv := sum_ycosx a j - sum_y a * sum_cosx a j
        let yyv := sum_yy a - sum_y a * sum_y a
        let ssv := sum_sinxsinx a j - sum_sinx a j * sum_sinx a j
        let ccv := (1 - sum_sinxsinx a j) - sum_cosx a j * sum_cosx a j
        let csv := sum_sinxcosx a j - sum_cosx a j * sum_sinx a j
        let dv := ccv * ssv - csv * csv
        sp.getD j none =
          fdiv (ssv * ycv * ycv + ccv * ysv * ysv - 2 * csv * ycv * ysv) (yyv * dv) ∧
        ac.getD j none = fdiv (ycv * ssv - ysv * csv) dv ∧
        av.getD j none = fdiv (ysv * ccv - ycv * csv) dv ∧
        ct.getD j none = (do
          let acv ← fdiv (ycv * ssv - ysv * csv) dv
          let avv ← fdiv (ysv * ccv - ycv * csv) dv
          pure (sum_y a - acv * sum_cosx a j - avv * sum_sinx a j + mean a)) := by
  refine ⟨_, _, _, _, lombscargle_ok a hv hw, fun j hj => ?_⟩
  simp only [getD_map_range _ _ hj]
  simp only [spectrumAt, ampCosAt, ampSinAt, constantAt, ss, cc, cs, d, ys, yc,
    yy, hc, if_true]
  exact ⟨trivial, trivial, trivial, trivial⟩

theorem with_constant_solver_formulas_witness :
    validArgs argsC2 ∧ argsC2.time.length ≤ argsC2.weights.length ∧
    argsC2.with_constant = true ∧
    (∃ sp ac av ct, lombscargle argsC2 = .ok (sp, ac, av, ct) ∧
      ∀ j < argsC2.num_freq,
        let ysv := sum_ysinx argsC2 j - sum_y argsC2 * sum_sinx argsC2 j
        let ycv := sum_ycosx argsC2 j - sum_y argsC2 * sum_cosx argsC2 j
        let yyv := sum_yy argsC2 - sum_y argsC2 * sum_y argsC2
        let ssv := sum_sinxsinx argsC2 j - sum_sinx argsC2 j * sum_sinx argsC2 j
        let ccv := (1 - sum_sinxsinx argsC2 j) - sum_cosx argsC2 j * sum_cosx argsC2 j
        let csv := sum_sinxcosx argsC2 j - sum_cosx argsC2 j * sum_sinx argsC2 j
        let dv := ccv * ssv - csv * csv
        sp.getD j none =
          fdiv (ssv * ycv * ycv + ccv * ysv * ysv - 2 * csv * ycv * ysv) (yyv * dv) ∧
        ac.getD j none = fdiv (ycv * ssv - ysv * csv) dv ∧
        av.getD j none = fdiv (ysv * ccv - ycv * csv) dv ∧
        ct.getD j none = (do
          let acv ← fdiv (ycv * ssv - ysv * csv) dv
          let avv ← fdiv (ysv * ccv - ycv * csv) dv
          pure (sum_y argsC2 - acv * sum_cosx argsC2 j - avv * sum_sinx argsC2 j +
            mean argsC2))) := by
  have hv : validArgs argsC2 :=
    ⟨by simp [argsC2], by simp [argsC2], by norm_num [argsC2], by simp [argsC2]⟩
  have hw : argsC2.time.length ≤ argsC2.weights.length := by simp [argsC2]
  exact ⟨hv, hw, rfl, with_constant_solver_formulas argsC2 hv hw rfl⟩

/-- C3: for every valid input with `with_constant = false` and every bin `j`,
the solver uses `ss = sum_sinxsinx[j]`, `cc = 1 - sum_sinxsinx[j]`,
`cs = sum_sinxcosx[j]`, `d = cc·ss - cs²`, the same power and amplitude
formulas as the floating-constant branch, and `constant[j]` equals the
weighted mean of `signal` (`Σ signal[n]·weights[n]`) identically for every
`j`. -/
theorem without_constant_solver_formulas (a : LSArgs) (hv : validArgs a)
    (hw : a.time.length ≤ a.weights.length) (hc : a.with_constant = false) :
    ∃ sp ac av ct, lombscargle a = .ok (sp, ac, av, ct) ∧
      (∀ j < a.num_freq,
        let ysv := sum_ysinx a j - sum_y a * sum_sinx a j
        let ycv := sum_ycosx a j - sum_y a * sum_cosx a j
        let yyv := sum_yy a - sum_y a * sum_y a
        let ssv := sum_sinxsinx a j
        let ccv := 1 - sum_sinxsinx a j
        let csv := sum_sinxcosx a j
        let dv := ccv * ssv - csv * csv
        sp.getD j none =
          fdiv (ssv * ycv * ycv + ccv * ysv * ysv - 2 * csv * ycv * ysv) (yyv * dv) ∧
        ac.getD j none = fdiv (ycv * ssv - ysv * csv) dv ∧
        av.getD j none = fdiv (ysv * ccv - ycv * csv) dv ∧
        ct.getD j none = some (mean a)) ∧
      mean a = ∑ n in range a.time.length, sigN a n * wN a n := by
  refine ⟨_, _, _, _, lombscargle_ok a hv hw, fun j hj => ?_,
    mean_eq_sum a hv.2.1 hw⟩
  simp only [getD_map_range _ _ hj]
  simp only [spectrumAt, ampCosAt, ampSinAt, constantAt, ss, cc, cs, d, ys, yc,
    yy, hc, if_false, Bool.false_eq_true]
  exact ⟨trivial, trivial, trivial, trivial⟩

theorem without_constant_solver_formulas_witness :
    validArgs argsC3 ∧ argsC3.time.length ≤ argsC3.weights.length ∧
    argsC3.with_constant = false ∧
    (∃ sp ac av ct, lombscargle argsC3 = .ok (sp, ac, av, ct) ∧
      (∀ j < argsC3.num_freq,
        let ysv := sum_ysinx argsC3 j - sum_y argsC3 * sum_sinx argsC3 j
        let ycv := sum_ycosx argsC3 j - sum_y argsC3 * sum_cosx argsC3 j
        let yyv := sum_yy argsC3 - sum_y argsC3 * sum_y argsC3
        let ssv := sum_sinxsinx argsC3 j
        let ccv := 1 - sum_sinxsinx argsC3 j
        let csv := sum_sinxcosx argsC3 j
        let dv := ccv * ssv - csv * csv
        sp.getD j none =
          fdiv (ssv * ycv * ycv + ccv * ysv * ysv - 2 * csv * ycv * ysv) (yyv * dv) ∧
        ac.getD j none = fdiv (ycv * ssv - ysv * csv) dv ∧
        av.getD j none = fdiv (ysv * ccv - ycv * csv) dv ∧
        ct.getD j none = some (mean argsC3)) ∧
      mean argsC3 = ∑ n in range argsC3.time.length, sigN argsC3 n * wN argsC3 n) := by
  have hv : validArgs argsC3 :=
    ⟨by simp [argsC3], by simp [argsC3], by norm_num [argsC3], by simp [argsC3]⟩
  have hw : argsC3.time.length ≤ argsC3.weights.length := by simp [argsC3]
  exact ⟨hv, hw, rfl, without_constant_solver_formulas argsC3 hv hw rfl⟩

/-- C4: the call fails with `InvalidInput` whenever `time` is empty,
`len(signal) ≠ len(time)`, `freq_step ≤ 0` or `num_freq = 0`; the error value
carries no outputs, so no partial results are produced. -/
theorem invalid_input_rejected (a : LSArgs)
    (h : a.time.length = 0 ∨ a.signal.length ≠ a.time.length ∨
      a.freq_step ≤ 0 ∨ a.num_freq = 0) :
    lombscargle a = .error .invalidInput := by
  unfold lombscargle
  split_ifs with h1 h2 h3 h4 h5 <;> try rfl
  all_goals
    exfalso
    push_neg at h3 h4
    rcases h with h | h | h | h
    · exact h1 h
    · exact h2 h
    · linarith
    · omega

theorem invalid_input_rejected_witness :
    (argsC4.time.length = 0 ∨ argsC4.signal.length ≠ argsC4.time.length ∨
      argsC4.freq_step ≤ 0 ∨ argsC4.num_freq = 0) ∧
    lombscargle argsC4 = .error .invalidInput :=
  ⟨Or.inl rfl, invalid_input_rejected argsC4 (Or.inl rfl)⟩

/-- C5: for every valid input, all four returned sequences have length
exactly `num_freq`, index `j` of each holds the per-bin value for angular
frequency `2π(freq_start + j·freq_step)`, and the frequencies
`freq_start + j·freq_step` are strictly increasing in `j`. -/
theorem output_shape (a : LSArgs) (hv : validArgs a)
    (hw : a.time.length ≤ a.weights.length) :
    ∃ sp ac av ct, lombscargle a = .ok (sp, ac, av, ct) ∧
      sp.length = a.num_freq ∧ ac.length = a.num_freq ∧
      av.length = a.num_freq ∧ ct.length = a.num_freq ∧
      (∀ j < a.num_freq,
        sp.getD j none = spectrumAt a j ∧ ac.getD j none = ampCosAt a j ∧
        av.getD j none = ampSinAt a j ∧ ct.getD j none = constantAt a j) ∧
      (∀ j k : ℕ, j < k →
        a.freq_start + j * a.freq_step < a.freq_start + k * a.freq_step) := by
  refine ⟨_, _, _, _, lombscargle_ok a hv hw, by simp, by simp, by simp, by simp,
    fun j hj => ⟨getD_map_range _ _ hj, getD_map_range _ _ hj,
      getD_map_range _ _ hj, getD_map_range _ _ hj⟩, fun j k hjk => ?_⟩
  have hjk' : (j : ℝ) < (k : ℝ) := by exact_mod_cast hjk
  exact add_lt_add_left (mul_lt_mul_of_pos_right hjk' hv.2.2.1) _

theorem output_shape_witness :
    validArgs argsC5 ∧ argsC5.time.length ≤ argsC5.weights.length ∧
    (∃ sp ac av ct, lombscargle argsC5 = .ok (sp, ac, av, ct) ∧
      sp.length = argsC5.num_freq ∧ ac.length = argsC5.num_freq ∧
      av.length = argsC5.num_freq ∧ ct.length = argsC5.num_freq ∧
      (∀ j < argsC5.num_freq,
        sp.getD j none = spectrumAt argsC5 j ∧
        ac.getD j none = ampCosAt argsC5 j ∧
        av.getD j none = ampSinAt argsC5 j ∧
        ct.getD j none = constantAt argsC5 j) ∧
      (∀ j k : ℕ, j < k →
        argsC5.freq_start + j * argsC5.freq_step <
          argsC5.freq_start + k * argsC5.freq_step)) := by
  have hv : validArgs argsC5 :=
    ⟨by simp [argsC5], by simp [argsC5], by norm_num [argsC5], by simp [argsC5]⟩
  have hw : argsC5.time.length ≤ argsC5.weights.length := by simp [argsC5]
  exact ⟨hv, hw, output_shape argsC5 hv hw⟩

/-- C6: for every valid input and every bin `j` whose determinant `d` is
(exactly) zero, the divisions of that bin have a zero divisor, so by IEEE
semantics (modelled by `fdiv`/`none`) `spectrum[j]`, `amp_cos[j]`,
`amp_sin[j]` — and, in the floating-constant branch, `constant[j]`, through
propagation — are non-finite; no error is raised (the call still returns
`ok`), and every bin `k` holds exactly its own per-bin value, so the
singular bin affects no other bin. -/
theorem singular_bin_nonfinite (a : LSArgs) (hv : validArgs a)
    (hw : a.time.length ≤ a.weights.length) (j : ℕ) (hj : j < a.num_freq)
    (hd : d a j = 0) :
    ∃ sp ac av ct, lombscargle a = .ok (sp, ac, av, ct) ∧
      sp.getD j none = none ∧ ac.getD j none = none ∧ av.getD j none = none ∧
      (a.with_constant = true → ct.getD j none = none) ∧
      (∀ k < a.num_freq,
        sp.getD k none = spectrumAt a k ∧ ac.getD k none = ampCosAt a k ∧
        av.getD k none = ampSinAt a k ∧ ct.getD k none = constantAt a k) := by
  refine ⟨_, _, _, _, lombscargle_ok a hv hw, ?_, ?_, ?_, ?_,
    fun k hk => ⟨getD_map_range _ _ hk, getD_map_range _ _ hk,
      getD_map_range _ _ hk, getD_map_range _ _ hk⟩⟩
  · rw [getD_map_range _ _ hj]
    unfold spectrumAt fdiv
    rw [hd, mul_zero, if_pos rfl]
  · rw [getD_map_range _ _ hj]
    unfold ampCosAt fdiv
    rw [hd, if_pos rfl]
  · rw [getD_map_range _ _ hj]
    unfold ampSinAt fdiv
    rw [hd, if_pos rfl]
  · intro hc
    rw [getD_map_range _ _ hj]
    unfold constantAt
    rw [hc]
    simp [ampCosAt, fdiv, hd]

theorem singular_bin_nonfinite_witness :
    validArgs argsC6 ∧ argsC6.time.length ≤ argsC6.weights.length ∧
    0 < argsC6.num_freq ∧ d argsC6 0 = 0 ∧
    (∃ sp ac av ct, lombscargle argsC6 = .ok (sp, ac, av, ct) ∧
      sp.getD 0 none = none ∧ ac.getD 0 none = none ∧ av.getD 0 none = none ∧
      (argsC6.with_constant = true → ct.getD 0 none = none) ∧
      (∀ k < argsC6.num_freq,
        sp.getD k none = spectrumAt argsC6 k ∧
        ac.getD k none = ampCosAt argsC6 k ∧
        av.getD k none = ampSinAt argsC6 k ∧
        ct.getD k none = constantAt argsC6 k)) := by
  have hv : validArgs argsC6 :=
    ⟨by simp [argsC6], by simp [argsC6], by norm_num [argsC6], by simp [argsC6]⟩
  have hw : argsC6.time.length ≤ argsC6.weights.length := by simp [argsC6]
  have hj : 0 < argsC6.num_freq := by simp [argsC6]
  have hd : d argsC6 0 = 0 := by
    have ht : tN argsC6 0 = 0 := by simp [tN, argsC6]
    have hs : sinxAt argsC6 0 0 = 0 := by
      rw [sinxAt_eq, ht, mul_zero, Real.sin_zero]
    have hc : cosxAt argsC6 0 0 = 1 := by
      rw [cosxAt_eq, ht, mul_zero, Real.cos_zero]
    unfold d cc ss cs
    simp only [show argsC6.with_constant = true from rfl, if_true]
    unfold sum_sinxsinx sum_sinx sum_cosx sum_sinxcosx
    rw [show argsC6.time.length = 1 from rfl]
    simp only [Finset.sum_range_one]
    rw [hs, hc]
    norm_num [wN, argsC6]
  exact ⟨hv, hw, hj, hd, singular_bin_nonfinite argsC6 hv hw 0 hj hd⟩

/-- C8 (counterexample): the claim fails as stated — at `time = [0]`,
`signal = [0]`, `weights = []`, `freq_start = 0`, `freq_step = 1`,
`num_freq = 1`, the four checked preconditions hold and `freq_start ≤ 0`,
yet the computation does not run to completion: the loop read `weights[0]`
is out of bounds (an index panic, not `InvalidInput`), so no outputs are
returned. -/
theorem freq_start_unchecked_counterexample :
    validArgs argsC8cex ∧ argsC8cex.freq_start ≤ 0 ∧
    lombscargle argsC8cex = .error .indexPanic := by
  refine ⟨⟨by simp [argsC8cex], by simp [argsC8cex], by norm_num [argsC8cex],
    by simp [argsC8cex]⟩, le_refl 0, ?_⟩
  unfold lombscargle
  norm_num [argsC8cex]

/-- C8 (amended): `freq_start` is not range-checked: for every input
satisfying the four checked preconditions and whose `weights` is at least
as long as `time`, a call with `freq_start ≤ 0` does not fail with
`InvalidInput`; the computation runs to completion and returns outputs of
length `num_freq`. -/
theorem freq_start_unchecked (a : LSArgs) (hv : validArgs a)
    (hw : a.time.length ≤ a.weights.length) (hfs : a.freq_start ≤ 0) :
    ∃ sp ac av ct, lombscargle a = .ok (sp, ac, av, ct) ∧
      sp.length = a.num_freq ∧ ac.length = a.num_freq ∧
      av.length = a.num_freq ∧ ct.length = a.num_freq :=
  ⟨_, _, _, _, lombscargle_ok a hv hw, by simp, by simp, by simp, by simp⟩

theorem freq_start_unchecked_witness :
    validArgs argsC8 ∧ argsC8.time.length ≤ argsC8.weights.length ∧
    argsC8.freq_start ≤ 0 ∧
    (∃ sp ac av ct, lombscargle argsC8 = .ok (sp, ac, av, ct) ∧
      sp.length = argsC8.num_freq ∧ ac.length = argsC8.num_freq ∧
      av.length = argsC8.num_freq ∧ ct.length = argsC8.num_freq) := by
  have hv : validArgs argsC8 :=
    ⟨by simp [argsC8], by simp [argsC8], by norm_num [argsC8], by simp [argsC8]⟩
  have hw : argsC8.time.length ≤ argsC8.weights.length := by simp [argsC8]
  have hfs : argsC8.freq_start ≤ 0 := le_refl 0
  exact ⟨hv, hw, hfs, freq_start_unchecked argsC8 hv hw hfs⟩

/-- C9: the length of `weights` is never validated: when `weights` is
shorter than `time` (and the four checked preconditions hold), the call does
not fail with `InvalidInput` but panics with an out-of-bounds index inside
the accumulation loop (`indexPanic`), and the weighted mean of line 50 has
been computed over only the first `len(weights)` samples, because the mean
computation zips `signal` with `weights` and silently truncates. -/
theorem short_weights_panic (a : LSArgs) (hv : validArgs a)
    (hw : a.weights.length < a.time.length) :
    lombscargle a = .error .indexPanic ∧
      mean a = ∑ n in range a.weights.length, sigN a n * wN a n := by
  obtain ⟨h1, h2, h3, h4⟩ := hv
  constructor
  · unfold lombscargle
    rw [if_neg (by omega), if_neg (by omega), if_neg (not_not_intro h3),
      if_neg (not_not_intro h4), if_pos hw]
  · unfold mean
    rw [zip_sum_eq]
    have hmin : min a.signal.length a.weights.length = a.weights.length := by
      omega
    rw [hmin]
    rfl

theorem short_weights_panic_witness :
    validArgs argsC9 ∧ argsC9.weights.length < argsC9.time.length ∧
    (lombscargle argsC9 = .error .indexPanic ∧
      mean argsC9 = ∑ n in range argsC9.weights.length, sigN argsC9 n * wN argsC9 n) := by
  have hv : validArgs argsC9 :=
    ⟨by simp [argsC9], by simp [argsC9], by norm_num [argsC9], by simp [argsC9]⟩
  have hw : argsC9.weights.length < argsC9.time.length := by simp [argsC9]
  exact ⟨hv, hw, short_weights_panic argsC9 hv hw⟩

/-- C10: for every valid input whose signal is constant with weights summing
exactly to 1, the centered values are all zero, hence
`sum_y = sum_yy = yy = 0`, so `spectrum[j]` is non-finite (`0/0` by IEEE
semantics, modelled as `none`) for every bin `j` — even when that bin's
determinant is nonzero — while for bins with `d ≠ 0` the amplitudes are
`0/d = 0`. -/
theorem constant_signal_nonfinite_power (a : LSArgs) (hv : validArgs a)
    (hw : a.time.length ≤ a.weights.length) (c : ℝ)
    (hconst : ∀ n < a.time.length, sigN a n = c)
    (hsum : ∑ n in range a.time.length, wN a n = 1) :
    (∀ n < a.time.length, yN a n = 0) ∧
    sum_y a = 0 ∧ sum_yy a = 0 ∧ yy a = 0 ∧
    (∃ sp ac av ct, lombscargle a = .ok (sp, ac, av, ct) ∧
      ∀ j < a.num_freq,
        sp.getD j none = none ∧
        (d a j ≠ 0 → ac.getD j none = some 0 ∧ av.getD j none = some 0)) := by
  obtain ⟨h1, h2, h3, h4⟩ := hv
  have hmean : mean a = c := by
    rw [mean_eq_sum a h2 hw]
    calc (∑ n in range a.time.length, sigN a n * wN a n)
        = ∑ n in range a.time.length, c * wN a n :=
          Finset.sum_congr rfl fun n hn => by
            rw [hconst n (Finset.mem_range.mp hn)]
      _ = c := by rw [← Finset.mul_sum, hsum, mul_one]
  have hy0 : ∀ n < a.time.length, yN a n = 0 := by
    intro n hn
    rw [yN_eq a (h2 ▸ hn), hconst n hn, hmean, sub_self]
  have hsy : sum_y a = 0 :=
    Finset.sum_eq_zero fun n hn => by
      rw [hy0 n (Finset.mem_range.mp hn), mul_zero]
  have hsyy : sum_yy a = 0 :=
    Finset.sum_eq_zero fun n hn => by
      rw [hy0 n (Finset.mem_range.mp hn), mul_zero]
  have hyy : yy a = 0 := by
    unfold yy
    rw [hsy, hsyy, mul_zero, sub_zero]
  refine ⟨hy0, hsy, hsyy, hyy, _, _, _, _, lombscargle_ok a ⟨h1, h2, h3, h4⟩ hw,
    fun j hj => ⟨?_, fun hd0 => ⟨?_, ?_⟩⟩⟩
  · rw [getD_map_range _ _ hj]
    unfold spectrumAt fdiv
    rw [hyy, zero_mul, if_pos rfl]
  · rw [getD_map_range _ _ hj]
    have hysz : ys a j = 0 := by
      unfold ys
      rw [hsy, zero_mul, sub_zero]
      unfold sum_ysinx
      exact Finset.sum_eq_zero fun n hn => by
        rw [hy0 n (Finset.mem_range.mp hn), mul_zero, zero_mul]
    have hycz : yc a j = 0 := by
      unfold yc
      rw [hsy, zero_mul, sub_zero]
      unfold sum_ycosx
      exact Finset.sum_eq_zero fun n hn => by
        rw [hy0 n (Finset.mem_range.mp hn), mul_zero, zero_mul]
    unfold ampCosAt fdiv
    rw [if_neg hd0, hysz, hycz, zero_mul, zero_mul, sub_zero, zero_div]
  · rw [getD_map_range _ _ hj]
    have hysz : ys a j = 0 := by
      unfold ys
      rw [hsy, zero_mul, sub_zero]
      unfold sum_ysinx
      exact Finset.sum_eq_zero fun n hn => by
        rw [hy0 n (Finset.mem_range.mp hn), mul_zero, zero_mul]
    have hycz : yc a j = 0 := by
      unfold yc
      rw [hsy, zero_mul, sub_zero]
      unfold sum_ycosx
      exact Finset.sum_eq_zero fun n hn => by
        rw [hy0 n (Finset.mem_range.mp hn), mul_zero, zero_mul]
    unfold ampSinAt fdiv
    rw [if_neg hd0, hysz, hycz, zero_mul, zero_mul, sub_zero, zero_div]

theorem constant_signal_nonfinite_power_witness :
    validArgs argsC10 ∧ argsC10.time.length ≤ argsC10.weights.length ∧
    (∀ n < argsC10.time.length, sigN argsC10 n = 5) ∧
    (∑ n in range argsC10.time.length, wN argsC10 n = 1) ∧
    ((∀ n < argsC10.time.length, yN argsC10 n = 0) ∧
     sum_y argsC10 = 0 ∧ sum_yy argsC10 = 0 ∧ yy argsC10 = 0 ∧
     (∃ sp ac av ct, lombscargle argsC10 = .ok (sp, ac, av, ct) ∧
       ∀ j < argsC10.num_freq,
         sp.getD j none = none ∧
         (d argsC10 j ≠ 0 →
           ac.getD j none = some 0 ∧ av.getD j none = some 0))) := by
  have hv : validArgs argsC10 :=
    ⟨by simp [argsC10], by simp [argsC10], by norm_num [argsC10], by simp [argsC10]⟩
  have hw : argsC10.time.length ≤ argsC10.weights.length := by simp [argsC10]
  have hconst : ∀ n < argsC10.time.length, sigN argsC10 n = 5 := by
    intro n hn
    have hn1 : n < 1 := by simpa [argsC10] using hn
    have hn0 : n = 0 := by omega
    subst hn0
    simp [sigN, argsC10]
  have hsum : ∑ n in range argsC10.time.length, wN argsC10 n = 1 := by
    show ∑ n in range 1, wN argsC10 n = 1
    rw [Finset.sum_range_one]
    simp [wN, argsC10]
  exact ⟨hv, hw, hconst, hsum,
    constant_signal_nonfinite_power argsC10 hv hw 5 hconst hsum⟩

/-- Cauchy-Schwarz for nonnegative weights summing to 1: the square of a
weighted mean is at most the weighted mean of the squares. -/
theorem weighted_sq_mean_le (s : Finset ℕ) (w f : ℕ → ℝ)
    (hw : ∀ n ∈ s, 0 ≤ w n) (h1 : ∑ n in s, w n = 1) :
    (∑ n in s, w n * f n) * (∑ n in s, w n * f n) ≤ ∑ n in s, w n * f n * f n := by
  have key := Finset.sum_mul_sq_le_sq_mul_sq s (fun n => Real.sqrt (w n))
    (fun n => Real.sqrt (w n) * f n)
  simp only at key
  have e1 : ∑ n in s, Real.sqrt (w n) * (Real.sqrt (w n) * f n) =
      ∑ n in s, w n * f n :=
    Finset.sum_congr rfl fun n hn => by
      rw [← mul_assoc, Real.mul_self_sqrt (hw n hn)]
  have e2 : ∑ n in s, Real.sqrt (w n) ^ 2 = 1 := by
    rw [← h1]
    exact Finset.sum_congr rfl fun n hn => Real.sq_sqrt (hw n hn)
  have e3 : ∑ n in s, (Real.sqrt (w n) * f n) ^ 2 =
      ∑ n in s, w n * f n * f n :=
    Finset.sum_congr rfl fun n hn => by
      rw [mul_pow, Real.sq_sqrt (hw n hn)]
      ring
  rw [e1, e2, e3, one_mul] at key
  calc (∑ n in s, w n * f n) * (∑ n in s, w n * f n)
      = (∑ n in s, w n * f n) ^ 2 := by ring
    _ ≤ _ := key

/-- In both solver branches, with nonnegative weights summing to 1, the `ss`
coefficient is nonnegative: it is either a weighted sum of squares or a
weighted variance of the sine values. -/
theorem ss_nonneg (a : LSArgs) (j : ℕ)
    (hnn : ∀ n < a.time.length, 0 ≤ wN a n)
    (hsum : ∑ n in range a.time.length, wN a n = 1) :
    0 ≤ ss a j := by
  have hterm : 0 ≤ ∑ n in range a.time.length,
      wN a n * sinxAt a n j * sinxAt a n j :=
    Finset.sum_nonneg fun n hn => by
      rw [mul_assoc]
      exact mul_nonneg (hnn n (Finset.mem_range.mp hn)) (mul_self_nonneg _)
  unfold ss
  split
  · have key := weighted_sq_mean_le (range a.time.length) (wN a)
      (fun n => sinxAt a n j) (fun n hn => hnn n (Finset.mem_range.mp hn)) hsum
    simp only at key
    unfold sum_sinxsinx sum_sinx
    linarith [key]
  · exact hterm

/-- C7: for every valid input with nonnegative weights summing to 1, and
every bin `j` with `yy > 0` and `d > 0`, the power value
`spectrum[j] = (ss·yc² + cc·ys² − 2·cs·yc·ys)/(yy·d)` is a finite
nonnegative number. -/
theorem power_nonneg (a : LSArgs) (hv : validArgs a)
    (hw : a.time.length ≤ a.weights.length)
    (hnn : ∀ n < a.time.length, 0 ≤ wN a n)
    (hsum : ∑ n in range a.time.length, wN a n = 1)
    (j : ℕ) (hj : j < a.num_freq) (hyy : 0 < yy a) (hd : 0 < d a j) :
    ∃ sp ac av ct, lombscargle a = .ok (sp, ac, av, ct) ∧
      ∃ v, sp.getD j none = some v ∧ 0 ≤ v := by
  have hd' : 0 < cc a j * ss a j - cs a j * cs a j := hd
  have hss0 : 0 ≤ ss a j := ss_nonneg a j hnn hsum
  have hsspos : 0 < ss a j := by
    rcases hss0.lt_or_eq with h | h
    · exact h
    · exfalso
      rw [← h, mul_zero] at hd'
      have := mul_self_nonneg (cs a j)
      linarith
  have hkey : 0 ≤ ss a j * (ss a j * yc a j * yc a j + cc a j * ys a j * ys a j -
      2 * cs a j * yc a j * ys a j) := by
    have expand : ss a j * (ss a j * yc a j * yc a j + cc a j * ys a j * ys a j -
        2 * cs a j * yc a j * ys a j) =
        (ss a j * yc a j - cs a j * ys a j) * (ss a j * yc a j - cs a j * ys a j) +
          (cc a j * ss a j - cs a j * cs a j) * (ys a j * ys a j) := by
      ring
    rw [expand]
    exact add_nonneg (mul_self_nonneg _) (mul_nonneg hd'.le (mul_self_nonneg _))
  have hQ : 0 ≤ ss a j * yc a j * yc a j + cc a j * ys a j * ys a j -
      2 * cs a j * yc a j * ys a j := by
    by_contra hneg
    push_neg at hneg
    nlinarith [mul_pos hsspos (neg_pos.mpr hneg), hkey]
  have hden : 0 < yy a * d a j := mul_pos hyy hd
  refine ⟨_, _, _, _, lombscargle_ok a hv hw, ?_⟩
  rw [getD_map_range _ _ hj]
  unfold spectrumAt fdiv
  rw [if_neg (ne_of_gt hden)]
  exact ⟨_, rfl, div_nonneg hQ hden.le⟩

theorem power_nonneg_witness :
    validArgs argsC7 ∧ argsC7.time.length ≤ argsC7.weights.length ∧
    (∀ n < argsC7.time.length, 0 ≤ wN argsC7 n) ∧
    (∑ n in range argsC7.time.length, wN argsC7 n = 1) ∧
    0 < argsC7.num_freq ∧ 0 < yy argsC7 ∧ 0 < d argsC7 0 ∧
    (∃ sp ac av ct, lombscargle argsC7 = .ok (sp, ac, av, ct) ∧
      ∃ v, sp.getD 0 none = some v ∧ 0 ≤ v) := by
  have hv : validArgs argsC7 :=
    ⟨by norm_num [argsC7], by norm_num [argsC7], by norm_num [argsC7],
      by norm_num [argsC7]⟩
  have hw : argsC7.time.length ≤ argsC7.weights.length := by norm_num [argsC7]
  have hw0 : wN argsC7 0 = 1 / 2 := by
    norm_num [wN, argsC7, List.getD_cons_zero]
  have hw1 : wN argsC7 1 = 1 / 2 := by
    norm_num [wN, argsC7, List.getD_cons_succ, List.getD_cons_zero]
  have hnn : ∀ n < argsC7.time.length, 0 ≤ wN argsC7 n := by
    intro n hn
    have hn2 : n < 2 := by simpa [argsC7] using hn
    interval_cases n
    · rw [hw0]
      norm_num
    · rw [hw1]
      norm_num
  have hlen : argsC7.time.length = 2 := by norm_num [argsC7]
  have hsum : ∑ n in range argsC7.time.length, wN argsC7 n = 1 := by
    rw [hlen, Finset.sum_range_succ, Finset.sum_range_one, hw0, hw1]
    norm_num
  have hj : 0 < argsC7.num_freq := by norm_num [argsC7]
  have hmean : mean argsC7 = 1 := by
    norm_num [mean, argsC7]
  have hy0 : yN argsC7 0 = -1 := by
    rw [yN_eq argsC7 (by norm_num [argsC7] : (0:ℕ) < argsC7.signal.length), hmean]
    norm_num [sigN, argsC7, List.getD_cons_zero]
  have hy1 : yN argsC7 1 = 1 := by
    rw [yN_eq argsC7 (by norm_num [argsC7] : (1:ℕ) < argsC7.signal.length), hmean]
    norm_num [sigN, argsC7, List.getD_cons_succ, List.getD_cons_zero]
  have hsy : sum_y argsC7 = 0 := by
    unfold sum_y
    rw [hlen, Finset.sum_range_succ, Finset.sum_range_one, hw0, hw1, hy0, hy1]
    norm_num
  have hsyy : sum_yy argsC7 = 1 := by
    unfold sum_yy
    rw [hlen, Finset.sum_range_succ, Finset.sum_range_one, hw0, hw1, hy0, hy1]
    norm_num
  have hyy : 0 < yy argsC7 := by
    unfold yy
    rw [hsy, hsyy]
    norm_num
  have ht0 : tN argsC7 0 = 0 := by norm_num [tN, argsC7, List.getD_cons_zero]
  have ht1 : tN argsC7 1 = 1 := by
    norm_num [tN, argsC7, List.getD_cons_succ, List.getD_cons_zero]
  have hs0 : sinxAt argsC7 0 0 = 0 := by
    rw [sinxAt_eq, ht0, mul_zero, Real.sin_zero]
  have hc0 : cosxAt argsC7 0 0 = 1 := by
    rw [cosxAt_eq, ht0, mul_zero, Real.cos_zero]
  have harg : omegaJ argsC7 0 * tN argsC7 1 = π / 2 := by
    rw [ht1]
    simp only [omegaJ, argsC7, Nat.cast_zero]
    ring
  have hs1 : sinxAt argsC7 1 0 = 1 := by
    rw [sinxAt_eq, harg, Real.sin_pi_div_two]
  have hc1 : cosxAt argsC7 1 0 = 0 := by
    rw [cosxAt_eq, harg, Real.cos_pi_div_two]
  have hssv : sum_sinxsinx argsC7 0 = 1 / 2 := by
    unfold sum_sinxsinx
    rw [hlen, Finset.sum_range_succ, Finset.sum_range_one, hw0, hw1, hs0, hs1]
    norm_num
  have hcsv : sum_sinxcosx argsC7 0 = 0 := by
    unfold sum_sinxcosx
    rw [hlen, Finset.sum_range_succ, Finset.sum_range_one, hw0, hw1, hs0, hs1,
      hc0, hc1]
    norm_num
  have hd : 0 < d argsC7 0 := by
    unfold d cc ss cs
    simp only [show argsC7.with_constant = false from rfl, Bool.false_eq_true,
      if_false]
    rw [hssv, hcsv]
    norm_num
  exact ⟨hv, hw, hnn, hsum, hj, hyy, hd,
    power_nonneg argsC7 hv hw hnn hsum 0 hj hyy hd⟩

end Lombscargle
